import Mathlib

/-!
Verification of the enzyme-predictability-atlas parsing pipeline.

Shallow embedding of the Python sources under `src/parsing/`:
* `parse_enzyme_core.py`  — flat-file record parser (`parse_enzyme_dat`, `flush_entry`)
* `explode_uniprot_ids.py` — pair expander
* `download_uniprot.py`   — batch fetcher (per-chunk error policy, column
  normalization, deduplication of fetched rows)
* `find_missing_uniprot_ids.py` — reconciler
* `merge_enzyme_uniprot.py` — merger

All definitions are executable translations of the source; theorems settle the
spec claims against them.
-/

namespace EnzymeAtlas

/-! ## Character classes for the DR-line regex

`parse_enzyme_core.py` line 100 uses `re.findall(r"\b([A-Z0-9]{6})\b", content)`.
A `\b` word boundary separates a word character (ASCII letter, digit or
underscore on the ASCII inputs at hand) from a non-word character or the
string edge; the character class `[A-Z0-9]` is an ASCII uppercase letter or
digit. -/

def isWordChar (c : Char) : Bool := c.isAlphanum || c == '_'

def isAccChar (c : Char) : Bool := c.isUpper || c.isDigit

/-- `true` when the list is empty or its head is not a word character
(the right-hand `\b` of the regex). -/
def headNotWord : List Char → Bool
  | [] => true
  | c :: _ => !isWordChar c

/-- A candidate accession body: exactly 6 characters, each in `[A-Z0-9]`. -/
def accToken (cs : List Char) : Bool := cs.length == 6 && cs.all isAccChar

/-- The regex `\b([A-Z0-9]{6})\b` matches at the head of `cs`. -/
def drMatchAt (cs : List Char) : Bool :=
  accToken (cs.take 6) && headNotWord (cs.drop 6)

/-- Left-to-right scan of `re.findall`: `prevWord` records whether the
character just before the current position is a word character (`false` at
the start of the string, which is a word boundary).  A match additionally
requires the preceding position to be a non-word character.  Because a match
is flanked by non-word characters, matches can never overlap, so advancing
one character at a time yields exactly the matches `re.findall` returns. -/
def drScan (prevWord : Bool) : List Char → List (List Char)
  | [] => []
  | c :: rest =>
    let found := drScan (isWordChar c) rest
    if !prevWord && drMatchAt (c :: rest) then (c :: rest).take 6 :: found
    else found

/-- All matches of `\b([A-Z0-9]{6})\b` in `s`, in order of appearance
(`re.findall` on line 100 of `parse_enzyme_core.py`). -/
def extractCandidates (s : String) : List String :=
  (drScan false s.data).map fun cs => String.mk cs

/-! ## String primitives

Python's slicing, `strip`, `split` and `startswith` are modelled directly on
the character list of the string, so that every definition evaluates inside
the kernel. -/

/-- Python `s[:n]`. -/
def strTake (s : String) (n : Nat) : String := ⟨s.data.take n⟩

/-- Python `s[n:]`. -/
def strDrop (s : String) (n : Nat) : String := ⟨s.data.drop n⟩

/-- Python `s.strip()`: remove leading and trailing whitespace. -/
def strTrim (s : String) : String :=
  ⟨((s.data.dropWhile Char.isWhitespace).reverse.dropWhile Char.isWhitespace).reverse⟩

/-- Python `s.startswith("PS")`. -/
def startsWithPS (s : String) : Bool :=
  match s.data with
  | 'P' :: 'S' :: _ => true
  | _ => false

/-- Maximal runs of non-whitespace characters (Python `s.split()`);
`cur` is the token currently being accumulated. -/
def tokenRunsAux (cur : List Char) : List Char → List (List Char)
  | [] => if cur.isEmpty then [] else [cur]
  | c :: rest =>
    if c.isWhitespace then
      if cur.isEmpty then tokenRunsAux [] rest else cur :: tokenRunsAux [] rest
    else tokenRunsAux (cur ++ [c]) rest

/-- Python `sep.join(xs)`. -/
def joinSep (sep : String) : List String → String
  | [] => ""
  | [x] => x
  | x :: xs => x ++ sep ++ joinSep sep xs

/-! ## The record parser (`parse_enzyme_dat`) -/

/-- The mutable accumulator `current` of `parse_enzyme_dat`. -/
structure Entry where
  ec : Option String
  name : List String
  alt : List String
  rxn : List String
  pr : List String
  acc : List String
deriving Repr, DecidableEq

def emptyEntry : Entry := ⟨none, [], [], [], [], []⟩

/-- One row of the output table (one dict appended to `rows`). -/
structure EnzymeRow where
  ec_number : Option String
  enzyme_name : Option String
  alt_names : Option String
  reaction : Option String
  prosite_refs : Option String
  uniprot_ids : Option String
deriving Repr, DecidableEq

/-- Python's `s or None` coercion applied to a joined string. -/
def emptyToNone (s : String) : Option String := if s = "" then none else some s

/-- The row built by `flush_entry` from the accumulator. -/
def toRow (e : Entry) : EnzymeRow :=
  ⟨e.ec,
   emptyToNone (joinSep " " e.name),
   emptyToNone (joinSep " " e.alt),
   emptyToNone (joinSep " " e.rxn),
   emptyToNone (joinSep "; " e.pr),
   emptyToNone (joinSep "," e.acc)⟩

/-- `flush_entry` (lines 39–61): if the accumulator has no id it does
nothing (in particular it does **not** reset the accumulator); otherwise it
appends the materialized row and resets every field. -/
def flushEntry (e : Entry) (rows : List EnzymeRow) : Entry × List EnzymeRow :=
  match e.ec with
  | none => (e, rows)
  | some _ => (emptyEntry, rows ++ [toRow e])

/-- First whitespace-delimited token of `content` (Python `content.split()`
followed by `parts[0] if parts else None`). -/
def firstToken (content : String) : Option String :=
  match tokenRunsAux [] content.data with
  | [] => none
  | t :: _ => some ⟨t⟩

/-- Processing of one line of the file (body of the `for` loop in
`parse_enzyme_dat`, lines 64–107).  `line` is the line with its trailing
newline already removed. -/
def processLineCore (e : Entry) (rows : List EnzymeRow) (l : String) :
    Entry × List EnzymeRow :=
  if l = "" then (e, rows)
  else if strTake l 2 = "ID" then
    ({ (flushEntry e rows).1 with ec := firstToken (strTrim (strDrop l 5)) },
     (flushEntry e rows).2)
  else if strTake l 2 = "DE" then
    ({ e with name := e.name ++ [strTrim (strDrop l 5)] }, rows)
  else if strTake l 2 = "AN" then
    ({ e with alt := e.alt ++ [strTrim (strDrop l 5)] }, rows)
  else if strTake l 2 = "CA" then
    ({ e with rxn := e.rxn ++ [strTrim (strDrop l 5)] }, rows)
  else if strTake l 2 = "PR" then
    ({ e with pr := e.pr ++ [strTrim (strDrop l 5)] }, rows)
  else if strTake l 2 = "DR" then
    ({ e with acc := e.acc ++
        ((extractCandidates (strTrim (strDrop l 5))).filter
          fun a => !(startsWithPS a)) },
     rows)
  else if strTake l 2 = "//" then flushEntry e rows
  else (e, rows)

def processLine (st : Entry × List EnzymeRow) (l : String) : Entry × List EnzymeRow :=
  processLineCore st.1 st.2 l

/-- `parse_enzyme_dat` on a list of newline-stripped lines: fold the loop
body over the lines, then flush the possibly still open accumulator
(line 110) and return the collected rows. -/
def parseLines (lines : List String) : List EnzymeRow :=
  let st := lines.foldl processLine (emptyEntry, [])
  (flushEntry st.1 st.2).2

/-! ## Characterization of the DR-line regex scan

`drScan` is the operational reading of `re.findall`.  We prove that it
returns exactly the maximal runs of word characters that consist of exactly
6 characters of `[A-Z0-9]` — the clean declarative reading of
`\b([A-Z0-9]{6})\b`. -/

/-- Maximal runs of word characters of a string, in order; `cur` is the run
currently being accumulated. -/
def wordRunsAux (cur : List Char) : List Char → List (List Char)
  | [] => if cur.isEmpty then [] else [cur]
  | c :: rest =>
    if isWordChar c then wordRunsAux (cur ++ [c]) rest
    else if cur.isEmpty then wordRunsAux [] rest
    else cur :: wordRunsAux [] rest

/-- Maximal runs of word characters of a string, in order. -/
def wordRuns (cs : List Char) : List (List Char) := wordRunsAux [] cs

theorem isAccChar_isWordChar {c : Char} (h : isAccChar c = true) :
    isWordChar c = true := by
  simp only [isAccChar, isWordChar, Char.isAlphanum, Char.isAlpha,
    Bool.or_eq_true] at h ⊢
  tauto

theorem headNotWord_dropWhile (cs : List Char) :
    headNotWord (cs.dropWhile isWordChar) = true := by
  induction cs with
  | nil => rfl
  | cons c rest ih =>
    by_cases hw : isWordChar c = true
    · rw [List.dropWhile_cons_of_pos hw]; exact ih
    · rw [List.dropWhile_cons_of_neg hw]
      simp [headNotWord, Bool.not_eq_true] at hw ⊢
      exact hw

theorem wordRunsAux_run (cs : List Char) : ∀ cur : List Char,
    wordRunsAux cur cs =
      wordRunsAux (cur ++ cs.takeWhile isWordChar) (cs.dropWhile isWordChar) := by
  induction cs with
  | nil => intro cur; simp [List.takeWhile_nil, List.dropWhile_nil]
  | cons c rest ih =>
    intro cur
    by_cases hw : isWordChar c = true
    · rw [List.takeWhile_cons_of_pos hw, List.dropWhile_cons_of_pos hw]
      have h0 : wordRunsAux cur (c :: rest) = wordRunsAux (cur ++ [c]) rest := by
        simp [wordRunsAux, hw]
      rw [h0, ih (cur ++ [c])]
      simp
    · rw [List.takeWhile_cons_of_neg hw, List.dropWhile_cons_of_neg hw]
      simp

theorem wordRuns_cons_neg {c : Char} (rest : List Char)
    (hw : isWordChar c = false) : wordRuns (c :: rest) = wordRuns rest := by
  simp [wordRuns, wordRunsAux, hw]

theorem wordRunsAux_flush (cur : List Char) (hcur : cur ≠ []) :
    ∀ cs : List Char, headNotWord cs = true →
      wordRunsAux cur cs = cur :: wordRuns cs := by
  intro cs hcs
  cases cs with
  | nil => simp [wordRunsAux, wordRuns, hcur]
  | cons c rest =>
    have hw : isWordChar c = false := by
      simpa [headNotWord, Bool.not_eq_true] using hcs
    simp [wordRunsAux, hw, hcur, wordRuns]

theorem wordRuns_cons_pos {c : Char} (rest : List Char)
    (hw : isWordChar c = true) :
    wordRuns (c :: rest) =
      (c :: rest.takeWhile isWordChar) :: wordRuns (rest.dropWhile isWordChar) := by
  show wordRunsAux [] (c :: rest) = _
  have h1 : wordRunsAux [] (c :: rest) = wordRunsAux [c] rest := by
    simp [wordRunsAux, hw]
  rw [h1, wordRunsAux_run rest [c],
    wordRunsAux_flush ([c] ++ rest.takeWhile isWordChar) (by simp)
      (rest.dropWhile isWordChar) (headNotWord_dropWhile rest)]
  simp

theorem takeWhile_eq_take_word : ∀ (n : Nat) (l : List Char),
    (l.take n).all isWordChar = true → headNotWord (l.drop n) = true →
    l.takeWhile isWordChar = l.take n := by
  intro n
  induction n with
  | zero =>
    intro l _ hdrop
    cases l with
    | nil => rfl
    | cons c rest =>
      have hw : ¬isWordChar c = true := by
        simp only [List.drop_zero, headNotWord, Bool.not_eq_true'] at hdrop
        simp [hdrop]
      simp [List.takeWhile_cons_of_neg hw]
  | succ n ih =>
    intro l hall hdrop
    cases l with
    | nil => rfl
    | cons c rest =>
      simp only [List.take_succ_cons, List.all_cons, Bool.and_eq_true] at hall
      rw [List.drop_succ_cons] at hdrop
      rw [List.takeWhile_cons_of_pos hall.1, ih rest hall.2 hdrop,
        List.take_succ_cons]

theorem take_takeWhile_length (l : List Char) :
    l.take (l.takeWhile isWordChar).length = l.takeWhile isWordChar := by
  have h := List.takeWhile_append_dropWhile (p := isWordChar) (l := l)
  calc l.take (l.takeWhile isWordChar).length
      = (l.takeWhile isWordChar ++ l.dropWhile isWordChar).take
          (l.takeWhile isWordChar).length := by rw [h]
    _ = l.takeWhile isWordChar := List.take_left _ _

theorem drop_takeWhile_length (l : List Char) :
    l.drop (l.takeWhile isWordChar).length = l.dropWhile isWordChar := by
  have h := List.takeWhile_append_dropWhile (p := isWordChar) (l := l)
  calc l.drop (l.takeWhile isWordChar).length
      = (l.takeWhile isWordChar ++ l.dropWhile isWordChar).drop
          (l.takeWhile isWordChar).length := by rw [h]
    _ = l.dropWhile isWordChar := List.drop_left _ _

theorem run_eq_take_of_match (cs : List Char) (h : drMatchAt cs = true) :
    cs.takeWhile isWordChar = cs.take 6 := by
  simp only [drMatchAt, accToken, Bool.and_eq_true] at h
  refine takeWhile_eq_take_word 6 cs ?_ h.2
  simp only [List.all_eq_true] at h ⊢
  intro c hc
  exact isAccChar_isWordChar (h.1.2 c hc)

theorem match_imp_goodRun (cs : List Char) (h : drMatchAt cs = true) :
    accToken (cs.takeWhile isWordChar) = true := by
  rw [run_eq_take_of_match cs h]
  simp only [drMatchAt, Bool.and_eq_true] at h
  exact h.1

theorem match_of_goodRun (cs : List Char)
    (hg : accToken (cs.takeWhile isWordChar) = true) : drMatchAt cs = true := by
  have hlen : (cs.takeWhile isWordChar).length = 6 := by
    simp only [accToken, Bool.and_eq_true, beq_iff_eq] at hg
    exact hg.1
  have htake : cs.take 6 = cs.takeWhile isWordChar := by
    rw [← hlen]; exact take_takeWhile_length cs
  have hdrop : cs.drop 6 = cs.dropWhile isWordChar := by
    rw [← hlen]; exact drop_takeWhile_length cs
  simp only [drMatchAt, Bool.and_eq_true, htake, hdrop]
  exact ⟨hg, headNotWord_dropWhile cs⟩

theorem match_head_word {c : Char} (rest : List Char)
    (h : drMatchAt (c :: rest) = true) : isWordChar c = true := by
  simp only [drMatchAt, accToken, Bool.and_eq_true, List.take_succ_cons,
    List.all_cons] at h
  exact isAccChar_isWordChar h.1.2.1

/-- The operational `re.findall` scan returns exactly the maximal
word-character runs that are 6-character `[A-Z0-9]` tokens: `false` is the
state at a word boundary, `true` the state in the middle of a run. -/
theorem drScan_eq_filter : ∀ cs : List Char,
    drScan false cs = (wordRuns cs).filter accToken ∧
    drScan true cs = (wordRuns (cs.dropWhile isWordChar)).filter accToken := by
  intro cs
  induction cs with
  | nil => exact ⟨rfl, rfl⟩
  | cons c rest ih =>
    have hTrue : drScan true (c :: rest) = drScan (isWordChar c) rest := rfl
    have hFalse : drScan false (c :: rest) =
        if drMatchAt (c :: rest) = true
        then (c :: rest).take 6 :: drScan (isWordChar c) rest
        else drScan (isWordChar c) rest := rfl
    refine ⟨?_, ?_⟩
    · rw [hFalse]
      by_cases hw : isWordChar c = true
      · rw [wordRuns_cons_pos rest hw, List.filter_cons, hw]
        by_cases hm : drMatchAt (c :: rest) = true
        · have hgood : accToken (c :: rest.takeWhile isWordChar) = true := by
            have h1 := match_imp_goodRun (c :: rest) hm
            rwa [List.takeWhile_cons_of_pos hw] at h1
          have htake : (c :: rest).take 6 = c :: rest.takeWhile isWordChar := by
            have h1 := run_eq_take_of_match (c :: rest) hm
            rw [← h1, List.takeWhile_cons_of_pos hw]
          rw [if_pos hm, if_pos hgood, htake, ih.2]
        · have hgood : ¬accToken (c :: rest.takeWhile isWordChar) = true := by
            intro hh
            exact hm (match_of_goodRun (c :: rest)
              (by rwa [List.takeWhile_cons_of_pos hw]))
          rw [if_neg hm, if_neg hgood, ih.2]
      · have hw' : isWordChar c = false := by rwa [Bool.not_eq_true] at hw
        have hm : ¬drMatchAt (c :: rest) = true := by
          intro hh
          exact hw (match_head_word rest hh)
        rw [if_neg hm, hw', wordRuns_cons_neg rest hw']
        exact ih.1
    · rw [hTrue]
      by_cases hw : isWordChar c = true
      · rw [hw, List.dropWhile_cons_of_pos hw]
        exact ih.2
      · have hw' : isWordChar c = false := by rwa [Bool.not_eq_true] at hw
        rw [hw', List.dropWhile_cons_of_neg hw, wordRuns_cons_neg rest hw']
        exact ih.1

/-- `extractCandidates` computes exactly the 6-character `[A-Z0-9]` maximal
word-character runs of the content, in order. -/
theorem extractCandidates_eq (s : String) :
    extractCandidates s =
      ((wordRuns s.data).filter accToken).map (fun cs => String.mk cs) := by
  unfold extractCandidates
  rw [(drScan_eq_filter s.data).1]

/-! ## Parser invariants (claim C1) -/

/-- 1 when the accumulator holds an id that will eventually be flushed. -/
def pend (e : Entry) : Nat := if e.ec.isSome then 1 else 0

/-- Lines that open a classification entry with an id: an `ID` line whose
content has a first whitespace-delimited token. -/
def opensEntry (l : String) : Bool :=
  !(l == "") && (strTake l 2 == "ID") && (firstToken (strTrim (strDrop l 5))).isSome

theorem flushEntry_none {e : Entry} (rows : List EnzymeRow) (h : e.ec = none) :
    flushEntry e rows = (e, rows) := by
  simp [flushEntry, h]

theorem flushEntry_some {e : Entry} (rows : List EnzymeRow) {x : String}
    (h : e.ec = some x) : flushEntry e rows = (emptyEntry, rows ++ [toRow e]) := by
  simp [flushEntry, h]

theorem flushEntry_ec (e : Entry) (rows : List EnzymeRow) :
    (flushEntry e rows).1.ec = none ∨ flushEntry e rows = (e, rows) := by
  cases h : e.ec with
  | none => exact Or.inr (flushEntry_none rows h)
  | some x => rw [flushEntry_some rows h]; exact Or.inl rfl

theorem step_invariant (e : Entry) (rows : List EnzymeRow) (l : String) :
    ((processLineCore e rows l).2.length + pend (processLineCore e rows l).1
      = rows.length + pend e + (opensEntry l).toNat) ∧
    (∀ r ∈ (processLineCore e rows l).2, r ∈ rows ∨ r.ec_number ≠ none) := by
  unfold processLineCore
  split_ifs with h0 h1 h2 h3 h4 h5 h6 h7
  · refine ⟨?_, fun r hr => Or.inl hr⟩
    simp [opensEntry, h0]
  · have hopen : opensEntry l = (firstToken (strTrim (strDrop l 5))).isSome := by
      simp [opensEntry, h0, h1]
    cases hec : e.ec with
    | none =>
      rw [flushEntry_none rows hec]
      refine ⟨?_, fun r hr => Or.inl hr⟩
      cases htok : (firstToken (strTrim (strDrop l 5))).isSome <;>
        simp [pend, hec, hopen, htok]
    | some x =>
      rw [flushEntry_some rows hec]
      constructor
      · simp [pend, hec, hopen, List.length_append]
        cases (firstToken (strTrim (strDrop l 5))).isSome <;> simp
      · intro r hr
        rcases List.mem_append.mp hr with hr | hr
        · exact Or.inl hr
        · right
          have hr2 : r = toRow e := List.mem_singleton.mp hr
          rw [hr2]
          simp [toRow, hec]
  all_goals
    try (refine ⟨?_, fun r hr => Or.inl hr⟩;
         simp [opensEntry, pend, h1])
  -- remaining: the `//` branch (flushEntry)
  cases hec : e.ec with
  | none =>
    rw [flushEntry_none rows hec]
    refine ⟨?_, fun r hr => Or.inl hr⟩
    simp [opensEntry, pend, h1]
  | some x =>
    rw [flushEntry_some rows hec]
    constructor
    · simp [opensEntry, pend, hec, h1, emptyEntry]
    · intro r hr
      rcases List.mem_append.mp hr with hr | hr
      · exact Or.inl hr
      · right
        have hr2 : r = toRow e := List.mem_singleton.mp hr
        rw [hr2]
        simp [toRow, hec]

theorem fold_invariant : ∀ (lines : List String) (e : Entry) (rows : List EnzymeRow),
    ((lines.foldl processLine (e, rows)).2.length
        + pend (lines.foldl processLine (e, rows)).1
      = rows.length + pend e + (lines.filter opensEntry).length) ∧
    (∀ r ∈ (lines.foldl processLine (e, rows)).2, r ∈ rows ∨ r.ec_number ≠ none) := by
  intro lines
  induction lines with
  | nil =>
    intro e rows
    exact ⟨by simp, fun r hr => Or.inl hr⟩
  | cons l ls ih =>
    intro e rows
    rw [List.foldl_cons]
    have hstep := step_invariant e rows l
    rcases hpl : processLineCore e rows l with ⟨e1, r1⟩
    have hpl' : processLine (e, rows) l = (e1, r1) := hpl
    rw [hpl] at hstep
    rw [hpl']
    have hih := ih e1 r1
    constructor
    · rw [List.filter_cons]
      have hcnt : (if opensEntry l = true then l :: ls.filter opensEntry
          else ls.filter opensEntry).length
          = (opensEntry l).toNat + (ls.filter opensEntry).length := by
        cases opensEntry l
        · simp
        · simp [Nat.add_comm]
      rw [hcnt]
      have h1 := hih.1
      have h2 := hstep.1
      simp only at h1 h2 ⊢
      omega
    · intro r hr
      rcases hih.2 r hr with hr2 | hr2
      · exact hstep.2 r hr2
      · exact Or.inr hr2

theorem processLine_term (st : Entry × List EnzymeRow) :
    processLine st "//" = flushEntry st.1 st.2 := rfl

theorem flush_flush (e : Entry) (rows : List EnzymeRow) :
    flushEntry (flushEntry e rows).1 (flushEntry e rows).2 = flushEntry e rows := by
  cases h : e.ec with
  | none => rw [flushEntry_none rows h, flushEntry_none rows h]
  | some x =>
    rw [flushEntry_some rows h]
    exact flushEntry_none _ rfl

/-- C1: every classification entry that opens with an id is flushed exactly
once (the record count equals the count of id-opening `ID` lines, entries
without an id are silently discarded), no emitted record has a null id, and
appending a trailing `//` terminator changes nothing — the final entry is
flushed at end-of-stream anyway. -/
theorem parse_flushes_each_entry_once (lines : List String) :
    (parseLines lines).all (fun r => r.ec_number.isSome) = true ∧
    (parseLines lines).length = (lines.filter opensEntry).length ∧
    parseLines (lines ++ ["//"]) = parseLines lines := by
  have hfold := fold_invariant lines emptyEntry []
  rcases hst : lines.foldl processLine (emptyEntry, []) with ⟨ef, rf⟩
  rw [hst] at hfold
  have hparse : parseLines lines = (flushEntry ef rf).2 := by
    unfold parseLines
    rw [hst]
  refine ⟨?_, ?_, ?_⟩
  · rw [List.all_eq_true]
    intro r hr
    rw [hparse] at hr
    have hmem : r.ec_number ≠ none := by
      cases hec : ef.ec with
      | none =>
        rw [flushEntry_none rf hec] at hr
        rcases hfold.2 r hr with h | h
        · exact absurd h (List.not_mem_nil r)
        · exact h
      | some x =>
        rw [flushEntry_some rf hec] at hr
        rcases List.mem_append.mp hr with h | h
        · rcases hfold.2 r h with h2 | h2
          · exact absurd h2 (List.not_mem_nil r)
          · exact h2
        · rw [List.mem_singleton.mp h]
          simp [toRow, hec]
    exact Option.isSome_iff_ne_none.mpr hmem
  · rw [hparse]
    have hlen : (flushEntry ef rf).2.length = rf.length + pend ef := by
      cases hec : ef.ec with
      | none => rw [flushEntry_none rf hec]; simp [pend, hec]
      | some x => rw [flushEntry_some rf hec]; simp [pend, hec]
    have hcnt := hfold.1
    have hpe : pend emptyEntry = 0 := rfl
    dsimp only at hcnt
    rw [hpe, List.length_nil] at hcnt
    rw [hlen]
    omega
  · have hp2 : parseLines (lines ++ ["//"])
        = (flushEntry ((lines ++ ["//"]).foldl processLine (emptyEntry, [])).1
            ((lines ++ ["//"]).foldl processLine (emptyEntry, [])).2).2 := rfl
    rw [hp2, List.foldl_append, hst]
    have h1 : List.foldl processLine (ef, rf) ["//"] = flushEntry ef rf := by
      rw [List.foldl_cons, List.foldl_nil, processLine_term]
    rw [h1, flush_flush, hparse]

/-- C4 counterexample: `DE` content accumulated before any id is open is
retained — it surfaces inside the record emitted for the next `ID` line,
contradicting the claim that an `ID` line starts an empty accumulator and
that content of an id-less entry never appears in an emitted record. -/
theorem id_line_stale_content_leaks :
    parseLines ["DE   leak", "ID   1.1.1.1", "//"]
      = [⟨some "1.1.1.1", some "leak", none, none, none, none⟩] ∧
    parseLines ["DE   leak", "ID   1.1.1.1", "//"]
      ≠ [⟨some "1.1.1.1", none, none, none, none, none⟩] :=
  ⟨by decide, by decide⟩

/-- C4 (amended): an `ID` line flushes an accumulator that has a non-null
id, and that flush resets every field, so the new accumulator holds only
the new id; but when no id is open, the `ID` line merely sets the id and
the previously accumulated field content is retained, not discarded. -/
theorem id_line_behavior (e : Entry) (rows : List EnzymeRow) (l : String)
    (h0 : l ≠ "") (h2 : strTake l 2 = "ID") :
    (∀ x, e.ec = some x →
      processLineCore e rows l
        = ({ emptyEntry with ec := firstToken (strTrim (strDrop l 5)) },
           rows ++ [toRow e])) ∧
    (e.ec = none →
      processLineCore e rows l
        = ({ e with ec := firstToken (strTrim (strDrop l 5)) }, rows)) := by
  have hbr : processLineCore e rows l
      = ({ (flushEntry e rows).1 with ec := firstToken (strTrim (strDrop l 5)) },
         (flushEntry e rows).2) := by
    unfold processLineCore
    rw [if_neg h0, if_pos h2]
  constructor
  · intro x hx
    rw [hbr, flushEntry_some rows hx]
  · intro hx
    rw [hbr, flushEntry_none rows hx]

theorem id_line_behavior_witness :
    ("ID   2.2.2.2" : String) ≠ "" ∧
    strTake "ID   2.2.2.2" 2 = "ID" ∧
    (Entry.ec ⟨some "1.1.1.1", ["n"], [], [], [], []⟩ = some "1.1.1.1") ∧
    processLineCore ⟨some "1.1.1.1", ["n"], [], [], [], []⟩ [] "ID   2.2.2.2"
      = ({ emptyEntry with ec := firstToken (strTrim (strDrop "ID   2.2.2.2" 5)) },
         [] ++ [toRow ⟨some "1.1.1.1", ["n"], [], [], [], []⟩]) :=
  ⟨by decide, by decide, rfl,
   (id_line_behavior ⟨some "1.1.1.1", ["n"], [], [], [], []⟩ [] "ID   2.2.2.2"
     (by decide) (by decide)).1 "1.1.1.1" rfl⟩

/-- C5 counterexample: accessions are **not** deduplicated at flush time —
a duplicated `DR` accession appears twice in the serialized field. -/
theorem flush_does_not_dedup_accessions :
    (parseLines ["ID   1.1.1.1", "DR   P12345, P12345 ;", "//"]).map
        EnzymeRow.uniprot_ids = [some "P12345,P12345"] ∧
    (parseLines ["ID   1.1.1.1", "DR   P12345, P12345 ;", "//"]).map
        EnzymeRow.uniprot_ids ≠ [some "P12345"] :=
  ⟨by decide, by decide⟩

/-- C5 (amended): flushing an accumulator with a non-null id emits a record
whose name/alt-name/reaction fields are the accumulation lists joined by
single spaces, cross-refs joined by `"; "`, and accessions joined (in
order, duplicates retained, **no** deduplication) by `","`; every empty
join is coerced to null, and a record with zero accessions is still
emitted (the row count grows by one). -/
theorem terminator_flush_fields (e : Entry) (rows : List EnzymeRow) (x : String)
    (h : e.ec = some x) :
    processLineCore e rows "//"
      = (emptyEntry,
         rows ++ [⟨some x,
           emptyToNone (joinSep " " e.name),
           emptyToNone (joinSep " " e.alt),
           emptyToNone (joinSep " " e.rxn),
           emptyToNone (joinSep "; " e.pr),
           emptyToNone (joinSep "," e.acc)⟩]) ∧
    (processLineCore e rows "//").2.length = rows.length + 1 := by
  have hterm : processLineCore e rows "//" = flushEntry e rows := rfl
  rw [hterm, flushEntry_some rows h]
  constructor
  · simp [toRow, h]
  · simp

theorem terminator_flush_fields_witness :
    (Entry.ec ⟨some "1.1.1.1", [], [], [], [], []⟩ = some "1.1.1.1") ∧
    processLineCore ⟨some "1.1.1.1", [], [], [], [], []⟩ [] "//"
      = (emptyEntry, [⟨some "1.1.1.1", none, none, none, none, none⟩]) ∧
    (processLineCore ⟨some "1.1.1.1", [], [], [], [], []⟩ [] "//").2.length
      = 0 + 1 := by
  have h := terminator_flush_fields ⟨some "1.1.1.1", [], [], [], [], []⟩ []
    "1.1.1.1" rfl
  exact ⟨rfl, by simpa using h.1, by simpa using h.2⟩

/-! ## Claim C2: the tokens appended by a `DR` line -/

/-- Modelled from the claim's words, for comparison with the source: a
token is a maximal run of exactly 6 uppercase-letter-or-digit characters
bounded by **non-alphanumeric** boundaries (the claim's reading of the
word-boundary match). -/
def headNotAlnum : List Char → Bool
  | [] => true
  | c :: _ => !c.isAlphanum

/-- Claim-modelled match at the head of `cs`. -/
def claimMatchAt (cs : List Char) : Bool :=
  accToken (cs.take 6) && headNotAlnum (cs.drop 6)

/-- Claim-modelled scan, parallel to `drScan` but with non-alphanumeric
boundaries. -/
def claimScan (prevAl : Bool) : List Char → List (List Char)
  | [] => []
  | c :: rest =>
    let found := claimScan c.isAlphanum rest
    if !prevAl && claimMatchAt (c :: rest) then (c :: rest).take 6 :: found
    else found

/-- Claim-modelled accession candidates of a `DR` content string. -/
def claimExtract (s : String) : List String :=
  (claimScan false s.data).map fun cs => String.mk cs

/-- C2 counterexample: on the `DR` content `"AB12C3_YEAST"` the claim's
non-alphanumeric-boundary extraction yields `["AB12C3"]` (an underscore is
not alphanumeric), but the code's `\b` word boundary treats `_` as a word
character, so the parser appends nothing. -/
theorem dr_boundary_counterexample :
    (claimExtract "AB12C3_YEAST").filter (fun a => !(startsWithPS a))
        = ["AB12C3"] ∧
    (extractCandidates "AB12C3_YEAST").filter (fun a => !(startsWithPS a))
        = [] ∧
    (parseLines ["ID   1.1.1.1", "DR   AB12C3_YEAST", "//"]).map
        EnzymeRow.uniprot_ids = [none] :=
  ⟨by decide, by decide, by decide⟩

/-- C2 (amended): a `DR` line appends, in order of appearance, exactly the
maximal runs of **word characters** (letters, digits or underscore) that
consist of exactly 6 uppercase-letter-or-digit characters, except those
with prefix `"PS"`; a 6-character run flanked by an underscore or embedded
in a longer word-character run is not extracted. -/
theorem dr_accession_extraction (e : Entry) (rows : List EnzymeRow) (l : String)
    (h0 : l ≠ "") (hdr : strTake l 2 = "DR") :
    processLineCore e rows l
      = ({ e with acc := e.acc ++
            ((((wordRuns (strTrim (strDrop l 5)).data).filter accToken).map
                (fun cs => String.mk cs)).filter fun a => !(startsWithPS a)) },
         rows) := by
  unfold processLineCore
  rw [if_neg h0, if_neg (by rw [hdr]; decide), if_neg (by rw [hdr]; decide),
    if_neg (by rw [hdr]; decide), if_neg (by rw [hdr]; decide),
    if_neg (by rw [hdr]; decide), if_pos hdr, extractCandidates_eq]

theorem dr_accession_extraction_witness :
    ("DR   P00561, AK1H_ECOLI ;  PS0001" : String) ≠ "" ∧
    strTake "DR   P00561, AK1H_ECOLI ;  PS0001" 2 = "DR" ∧
    processLineCore emptyEntry [] "DR   P00561, AK1H_ECOLI ;  PS0001"
      = ({ emptyEntry with acc :=
            [] ++ ((((wordRuns (strTrim (strDrop "DR   P00561, AK1H_ECOLI ;  PS0001" 5)).data).filter
                accToken).map (fun cs => String.mk cs)).filter
                  fun a => !(startsWithPS a)) },
         []) ∧
    (processLineCore emptyEntry [] "DR   P00561, AK1H_ECOLI ;  PS0001").1.acc
      = ["P00561"] :=
  ⟨by decide, by decide,
   dr_accession_extraction emptyEntry [] "DR   P00561, AK1H_ECOLI ;  PS0001"
     (by decide) (by decide),
   by decide⟩

/-! ## `pandas.drop_duplicates` (keep="first"), by an arbitrary key -/

/-- Keep each element whose key has not been seen yet, in order
(`drop_duplicates` with `keep="first"`; `seen` is the set of keys already
kept). -/
def dedupKeyAux {α β : Type} [DecidableEq β] (key : α → β) (seen : List β) :
    List α → List α
  | [] => []
  | x :: xs =>
    if key x ∈ seen then dedupKeyAux key seen xs
    else x :: dedupKeyAux key (key x :: seen) xs

/-- `DataFrame.drop_duplicates(subset=key)`: keep the first row of each key. -/
def dedupByKey {α β : Type} [DecidableEq β] (key : α → β) (l : List α) : List α :=
  dedupKeyAux key [] l

theorem dedupKeyAux_sublist {α β : Type} [DecidableEq β] (key : α → β) :
    ∀ (l : List α) (seen : List β), List.Sublist (dedupKeyAux key seen l) l := by
  intro l
  induction l with
  | nil => intro seen; exact List.Sublist.refl []
  | cons x xs ih =>
    intro seen
    by_cases h : key x ∈ seen
    · simp only [dedupKeyAux, if_pos h]
      exact (ih seen).cons x
    · simp only [dedupKeyAux, if_neg h]
      exact (ih (key x :: seen)).cons₂ x

theorem dedupKeyAux_key_not_seen {α β : Type} [DecidableEq β] (key : α → β) :
    ∀ (l : List α) (seen : List β) (y : α),
      y ∈ dedupKeyAux key seen l → key y ∉ seen := by
  intro l
  induction l with
  | nil => intro seen y hy; exact absurd hy (List.not_mem_nil y)
  | cons x xs ih =>
    intro seen y hy
    by_cases h : key x ∈ seen
    · rw [dedupKeyAux, if_pos h] at hy
      exact ih seen y hy
    · rw [dedupKeyAux, if_neg h] at hy
      rcases List.mem_cons.mp hy with hy | hy
      · rw [hy]; exact h
      · intro hmem
        exact ih (key x :: seen) y hy (List.mem_cons_of_mem _ hmem)

theorem dedupKeyAux_keys_nodup {α β : Type} [DecidableEq β] (key : α → β) :
    ∀ (l : List α) (seen : List β),
      ((dedupKeyAux key seen l).map key).Nodup := by
  intro l
  induction l with
  | nil => intro seen; simp [dedupKeyAux]
  | cons x xs ih =>
    intro seen
    by_cases h : key x ∈ seen
    · rw [dedupKeyAux, if_pos h]; exact ih seen
    · rw [dedupKeyAux, if_neg h, List.map_cons, List.nodup_cons]
      refine ⟨?_, ih (key x :: seen)⟩
      intro hmem
      rcases List.mem_map.mp hmem with ⟨y, hy, hkey⟩
      exact dedupKeyAux_key_not_seen key xs (key x :: seen) y hy
        (hkey ▸ List.mem_cons_self (key x) seen)

theorem dedupKeyAux_find {α β : Type} [DecidableEq β] (key : α → β) :
    ∀ (l : List α) (seen : List β) (y : α), y ∈ dedupKeyAux key seen l →
      l.find? (fun z => decide (key z = key y)) = some y := by
  intro l
  induction l with
  | nil => intro seen y hy; exact absurd hy (List.not_mem_nil y)
  | cons x xs ih =>
    intro seen y hy
    have hns : key y ∉ seen := dedupKeyAux_key_not_seen key (x :: xs) seen y hy
    by_cases h : key x ∈ seen
    · rw [dedupKeyAux, if_pos h] at hy
      have hne : ¬(decide (key x = key y) = true) := by
        simp only [decide_eq_true_eq]
        intro hk
        exact hns (hk ▸ h)
      have hstep : List.find? (fun z => decide (key z = key y)) (x :: xs)
          = List.find? (fun z => decide (key z = key y)) xs :=
        List.find?_cons_of_neg xs hne
      rw [hstep]
      exact ih seen y hy
    · rw [dedupKeyAux, if_neg h] at hy
      rcases List.mem_cons.mp hy with hy | hy
      · rw [hy] at hns ⊢
        exact List.find?_cons_of_pos _ (by simp)
      · have hns2 : key y ∉ key x :: seen :=
          dedupKeyAux_key_not_seen key xs (key x :: seen) y hy
        have hne : ¬(decide (key x = key y) = true) := by
          simp only [decide_eq_true_eq]
          intro hk
          exact hns2 (hk ▸ List.mem_cons_self (key x) seen)
        have hstep : List.find? (fun z => decide (key z = key y)) (x :: xs)
            = List.find? (fun z => decide (key z = key y)) xs :=
          List.find?_cons_of_neg xs hne
        rw [hstep]
        exact ih (key x :: seen) y hy

theorem dedupKeyAux_covers {α β : Type} [DecidableEq β] (key : α → β) :
    ∀ (l : List α) (seen : List β) (x : α), x ∈ l → key x ∉ seen →
      ∃ y ∈ dedupKeyAux key seen l, key y = key x := by
  intro l
  induction l with
  | nil => intro seen x hx; exact absurd hx (List.not_mem_nil x)
  | cons z zs ih =>
    intro seen x hx hns
    by_cases h : key z ∈ seen
    · rw [dedupKeyAux, if_pos h]
      rcases List.mem_cons.mp hx with hx | hx
      · exact absurd (hx ▸ hns) (fun hh => hh h)
      · exact ih seen x hx hns
    · rw [dedupKeyAux, if_neg h]
      rcases List.mem_cons.mp hx with hx | hx
      · exact ⟨z, List.mem_cons_self _ _, by rw [hx]⟩
      · by_cases hk : key x = key z
        · exact ⟨z, List.mem_cons_self _ _, hk.symm⟩
        · have hns2 : key x ∉ key z :: seen := by
            intro hmem
            rcases List.mem_cons.mp hmem with hmem | hmem
            · exact hk hmem
            · exact hns hmem
          rcases ih (key z :: seen) x hx hns2 with ⟨y, hy, hkey⟩
          exact ⟨y, List.mem_cons_of_mem _ hy, hkey⟩

theorem mem_dedupByKey_id {α : Type} [DecidableEq α] (l : List α) (x : α) :
    x ∈ dedupByKey id l ↔ x ∈ l := by
  constructor
  · intro hx
    exact (dedupKeyAux_sublist id l []).subset hx
  · intro hx
    rcases dedupKeyAux_covers id l [] x hx (List.not_mem_nil _) with ⟨y, hy, hkey⟩
    have : y = x := hkey
    exact this ▸ hy

theorem nodup_dedupByKey_id {α : Type} [DecidableEq α] (l : List α) :
    (dedupByKey id l).Nodup := by
  have h := dedupKeyAux_keys_nodup id l []
  simpa using h

/-! ## The reconciler (`find_missing_uniprot_ids.py`, claim C7)

A table column is a list of nullable strings; `dropna` keeps the non-null
entries, `unique`/`set` deduplicates, `sorted` sorts lexicographically. -/

/-- `find_missing_ids` (lines 10–13): `sorted(set(pairs col) - set(uni col))`. -/
def findMissing (pairsCol uniCol : List (Option String)) : List String :=
  let allIds := dedupByKey id (pairsCol.filterMap (fun x => x))
  let gotIds := uniCol.filterMap (fun x => x)
  List.insertionSort (· ≤ ·) (allIds.filter (fun x => decide (x ∉ gotIds)))

/-- C7: the reconciler's output is exactly the sorted, duplicate-free
sequence of the requested ids absent from the retrieved ids (set difference
`requested \ retrieved`), and `missing(S, S)` is empty.  Purity is inherent
to the embedding: the result depends only on the two input columns. -/
theorem missing_ids_spec (pairsCol uniCol : List (Option String)) :
    (∀ x : String,
      x ∈ findMissing pairsCol uniCol ↔ some x ∈ pairsCol ∧ some x ∉ uniCol) ∧
    List.Sorted (· ≤ ·) (findMissing pairsCol uniCol) ∧
    (findMissing pairsCol uniCol).Nodup ∧
    findMissing pairsCol pairsCol = [] := by
  refine ⟨?_, ?_, ?_, ?_⟩
  · intro x
    unfold findMissing
    rw [List.Perm.mem_iff (List.perm_insertionSort _ _), List.mem_filter,
      mem_dedupByKey_id, List.mem_filterMap]
    constructor
    · rintro ⟨⟨a, ha, hax⟩, hnot⟩
      rw [hax] at ha
      refine ⟨ha, ?_⟩
      intro hmem
      rw [decide_eq_true_eq] at hnot
      exact hnot (List.mem_filterMap.mpr ⟨some x, hmem, rfl⟩)
    · rintro ⟨hin, hnot⟩
      refine ⟨⟨some x, hin, rfl⟩, ?_⟩
      rw [decide_eq_true_eq]
      intro hmem
      rcases List.mem_filterMap.mp hmem with ⟨a, ha, hax⟩
      rw [hax] at ha
      exact hnot ha
  · exact List.sorted_insertionSort _ _
  · exact ((List.perm_insertionSort _ _).nodup_iff).mpr
      ((nodup_dedupByKey_id _).filter _)
  · unfold findMissing
    have hfil : (dedupByKey id (pairsCol.filterMap (fun x => x))).filter
        (fun x => decide (x ∉ pairsCol.filterMap (fun x => x))) = [] := by
      rw [List.filter_eq_nil_iff]
      intro a ha
      rw [mem_dedupByKey_id] at ha
      simp only [decide_eq_true_eq, Decidable.not_not]
      simpa using ha
    show List.insertionSort (· ≤ ·)
        ((dedupByKey id (pairsCol.filterMap (fun x => x))).filter
          (fun x => decide (x ∉ pairsCol.filterMap (fun x => x)))) = []
    rw [hfil]
    rfl

/-! ## The pair expander (`explode_uniprot_ids.py`, claim C8) -/

/-- Python `s.split(",")`; `cur` is the piece currently being accumulated. -/
def splitCommaAux (cur : List Char) : List Char → List (List Char)
  | [] => [cur]
  | c :: rest =>
    if c = ',' then cur :: splitCommaAux [] rest
    else splitCommaAux (cur ++ [c]) rest

/-- Python `s.split(",")`. -/
def splitComma (s : String) : List String :=
  (splitCommaAux [] s.data).map fun cs => ⟨cs⟩

/-- `[x for x in s.split(",") if x.strip()]` (line 27): keep the raw token
whenever it contains a non-whitespace character. -/
def splitIds (s : String) : List String :=
  (splitComma s).filter fun x => !(strTrim x == "")

/-- `df.explode` on the tokenized id column: a row whose token list is empty
becomes a single row with a null id; otherwise one row per token. -/
def explodeRows (records : List (String × Option String)) :
    List (String × Option String) :=
  records.bind fun r =>
    match splitIds (r.2.getD "") with
    | [] => [(r.1, none)]
    | t :: ts => (t :: ts).map fun u => (r.1, some u)

/-- `explode_uniprot_ids` (lines 24–37): fill nulls with `""`, tokenize,
explode, drop rows with null or empty id, keep the two columns, and
deduplicate by the whole `(EC_number, UniProt_ID)` pair. -/
def explodeModel (records : List (String × Option String)) :
    List (String × String) :=
  dedupByKey id
    (((explodeRows records).filter
        (fun r => r.2.isSome && !(r.2 == some ""))).map
      fun r => (r.1, r.2.getD ""))

/-- Modelled from the claim's words, for comparison with the source: split
on commas, drop exactly the **empty** tokens, emit one pair per surviving
token, deduplicate by the pair. -/
def claimExplode (records : List (String × Option String)) :
    List (String × String) :=
  dedupByKey id
    (records.bind fun r =>
      ((splitComma (r.2.getD "")).filter (fun x => !(x == ""))).map
        fun t => (r.1, t))

theorem mem_splitIds_trim {s x : String} (h : x ∈ splitIds s) :
    ¬(strTrim x = "") := by
  have h2 := (List.mem_filter.mp h).2
  simp only [Bool.not_eq_true', beq_eq_false_iff_ne, ne_eq] at h2
  exact h2

theorem strTrim_empty : strTrim "" = "" := rfl

/-- C8 counterexample: the whitespace-only token between the two commas of
`"P00001, ,P00002"` is dropped by the code (`if x.strip()`), although it is
not an empty token, so the claim's pair set differs from the code's. -/
theorem explode_whitespace_token_counterexample :
    claimExplode [("1.1.1.1", some "P00001, ,P00002")]
      = [("1.1.1.1", "P00001"), ("1.1.1.1", " "), ("1.1.1.1", "P00002")] ∧
    explodeModel [("1.1.1.1", some "P00001, ,P00002")]
      = [("1.1.1.1", "P00001"), ("1.1.1.1", "P00002")] ∧
    claimExplode [("1.1.1.1", some "P00001, ,P00002")]
      ≠ explodeModel [("1.1.1.1", some "P00001, ,P00002")] :=
  ⟨by decide, by decide, by decide⟩

/-- C8 (amended): the expander splits each record's comma-joined accession
string on commas, drops every token that is empty **or whitespace-only**
(surviving tokens are kept verbatim, untrimmed), emits one `(id, accession)`
pair per surviving token, and deduplicates the output by the whole pair, so
the result contains no duplicate pair. -/
theorem explode_pairs_spec (records : List (String × Option String)) :
    explodeModel records
      = dedupByKey id (records.bind fun r =>
          (splitIds (r.2.getD "")).map fun t => (r.1, t)) ∧
    (explodeModel records).Nodup := by
  have hinner : ((explodeRows records).filter
        (fun r => r.2.isSome && !(r.2 == some ""))).map
          (fun r => (r.1, r.2.getD ""))
      = records.bind fun r => (splitIds (r.2.getD "")).map fun t => (r.1, t) := by
    induction records with
    | nil => rfl
    | cons r rs ih =>
      have hhead : explodeRows (r :: rs)
          = (match splitIds (r.2.getD "") with
             | [] => [(r.1, none)]
             | t :: ts => (t :: ts).map fun u => (r.1, some u))
            ++ explodeRows rs := rfl
      have hbind : ((r :: rs).bind fun s => (splitIds (s.2.getD "")).map
            fun t => (s.1, t))
          = ((splitIds (r.2.getD "")).map fun t => (r.1, t))
            ++ rs.bind fun s => (splitIds (s.2.getD "")).map fun t => (s.1, t) := rfl
      rw [hhead, List.filter_append, List.map_append, ih, hbind]
      congr 1
      cases hspl : splitIds (r.2.getD "") with
      | nil => rfl
      | cons t ts =>
        have hkeep : ((t :: ts).map fun u => (r.1, some u)).filter
            (fun q => q.2.isSome && !(q.2 == some ""))
            = (t :: ts).map fun u => (r.1, some u) := by
          rw [List.filter_eq_self]
          intro q hq
          rcases List.mem_map.mp hq with ⟨u, hu, hqu⟩
          have hne : ¬(strTrim u = "") :=
            mem_splitIds_trim (hspl ▸ hu)
          have hune : u ≠ "" := by
            intro hu0
            exact hne (hu0 ▸ strTrim_empty)
          rw [← hqu]
          simp [hune]
        rw [hkeep, List.map_map]
        rfl
  refine ⟨by rw [explodeModel, hinner], ?_⟩
  exact nodup_dedupByKey_id _

/-! ## The merger (`merge_enzyme_uniprot.py`, claim C6) -/

/-- One row of the pair table. -/
structure PairT where
  ec : String
  acc : String
deriving DecidableEq, Repr

/-- One row of the classification-metadata selection
(`enzyme_raw[["EC_number", "Enzyme_name", "Alt_names", "Reaction", "Prosite_refs"]]`). -/
structure EcMetaT where
  ec : String
  ename : Option String
  aname : Option String
  rxn : Option String
  pr : Option String
deriving DecidableEq, Repr

/-- One row of the fetched sequence table (the fields beyond the join key
and the sequence play no role in the merger's row-dropping rule). -/
structure UniT where
  acc : String
  seq : Option String
deriving DecidableEq, Repr

/-- A pair row after the first left join. -/
structure MidT where
  ec : String
  acc : String
  ename : Option String
  aname : Option String
  rxn : Option String
  pr : Option String
deriving DecidableEq, Repr

/-- A row of the master table before/after the sequence filter. -/
structure MasterT where
  ec : String
  acc : String
  ename : Option String
  aname : Option String
  rxn : Option String
  pr : Option String
  seq : Option String
deriving DecidableEq, Repr

/-- `pairs.merge(ec_meta, on="EC_number", how="left")`: each pair row is
repeated once per matching metadata row, or kept once with null metadata
when nothing matches. -/
def joinMeta (pairs : List PairT) (meta : List EcMetaT) : List MidT :=
  pairs.bind fun p =>
    match meta.filter (fun m => m.ec == p.ec) with
    | [] => [⟨p.ec, p.acc, none, none, none, none⟩]
    | ms => ms.map fun m => ⟨p.ec, p.acc, m.ename, m.aname, m.rxn, m.pr⟩

/-- `df.merge(uniprot, on="UniProt_ID", how="left")`. -/
def joinSeq (mids : List MidT) (uni : List UniT) : List MasterT :=
  mids.bind fun q =>
    match uni.filter (fun u => u.acc == q.acc) with
    | [] => [⟨q.ec, q.acc, q.ename, q.aname, q.rxn, q.pr, none⟩]
    | us => us.map fun u => ⟨q.ec, q.acc, q.ename, q.aname, q.rxn, q.pr, u.seq⟩

/-- `merge_enzyme_uniprot` (lines 29–42): dedup the metadata selection, two
left joins, then drop the rows whose sequence is null or empty
(`df["Sequence"].notna() & (df["Sequence"].astype(str) != "")`). -/
def mergeModel (pairs : List PairT) (meta : List EcMetaT) (uni : List UniT) :
    List MasterT :=
  (joinSeq (joinMeta pairs (dedupByKey id meta)) uni).filter
    fun r => !(r.seq == none) && !(r.seq == some "")

theorem mem_joinMeta (pairs : List PairT) (meta : List EcMetaT) (q : MidT) :
    q ∈ joinMeta pairs meta ↔
      ∃ p ∈ pairs, q.ec = p.ec ∧ q.acc = p.acc ∧
        ((∃ m ∈ meta, m.ec = p.ec ∧ q.ename = m.ename ∧ q.aname = m.aname ∧
            q.rxn = m.rxn ∧ q.pr = m.pr) ∨
         ((∀ m ∈ meta, m.ec ≠ p.ec) ∧ q.ename = none ∧ q.aname = none ∧
            q.rxn = none ∧ q.pr = none)) := by
  rw [joinMeta, List.mem_bind]
  constructor
  · rintro ⟨p, hp, hq⟩
    refine ⟨p, hp, ?_⟩
    cases hfil : meta.filter (fun m => m.ec == p.ec) with
    | nil =>
      rw [hfil] at hq
      have hq2 := List.mem_singleton.mp hq
      rw [hq2]
      refine ⟨rfl, rfl, Or.inr ⟨?_, rfl, rfl, rfl, rfl⟩⟩
      intro m hm
      have := List.filter_eq_nil_iff.mp hfil m hm
      simpa using this
    | cons m0 ms =>
      rw [hfil] at hq
      rcases List.mem_map.mp hq with ⟨m, hm, hqm⟩
      have hmfil : m ∈ meta.filter (fun m => m.ec == p.ec) := by
        rw [hfil]; exact hm
      have hmem := List.mem_filter.mp hmfil
      have hmec : m.ec = p.ec := by simpa using hmem.2
      rw [← hqm]
      exact ⟨rfl, rfl, Or.inl ⟨m, hmem.1, hmec, rfl, rfl, rfl, rfl⟩⟩
  · rintro ⟨p, hp, hqec, hqacc, hcase⟩
    refine ⟨p, hp, ?_⟩
    rcases hcase with ⟨m, hm, hmec, h1, h2, h3, h4⟩ | ⟨hall, h1, h2, h3, h4⟩
    · have hmfil : m ∈ meta.filter (fun m => m.ec == p.ec) :=
        List.mem_filter.mpr ⟨hm, by simpa using hmec⟩
      cases hfil : meta.filter (fun m => m.ec == p.ec) with
      | nil => rw [hfil] at hmfil; exact absurd hmfil (List.not_mem_nil m)
      | cons m0 ms =>
        rw [hfil] at hmfil
        apply List.mem_map.mpr
        refine ⟨m, hmfil, ?_⟩
        cases q
        simp only at hqec hqacc h1 h2 h3 h4
        simp [hqec, hqacc, h1, h2, h3, h4]
    · have hfil : meta.filter (fun m => m.ec == p.ec) = [] := by
        rw [List.filter_eq_nil_iff]
        intro m hm
        simpa using hall m hm
      rw [hfil]
      apply List.mem_singleton.mpr
      cases q
      simp only at hqec hqacc h1 h2 h3 h4
      simp [hqec, hqacc, h1, h2, h3, h4]

theorem mem_joinSeq (mids : List MidT) (uni : List UniT) (r : MasterT) :
    r ∈ joinSeq mids uni ↔
      ∃ q ∈ mids, r.ec = q.ec ∧ r.acc = q.acc ∧ r.ename = q.ename ∧
        r.aname = q.aname ∧ r.rxn = q.rxn ∧ r.pr = q.pr ∧
        ((∃ u ∈ uni, u.acc = q.acc ∧ r.seq = u.seq) ∨
         ((∀ u ∈ uni, u.acc ≠ q.acc) ∧ r.seq = none)) := by
  rw [joinSeq, List.mem_bind]
  constructor
  · rintro ⟨q, hq, hr⟩
    refine ⟨q, hq, ?_⟩
    cases hfil : uni.filter (fun u => u.acc == q.acc) with
    | nil =>
      rw [hfil] at hr
      have hr2 := List.mem_singleton.mp hr
      rw [hr2]
      refine ⟨rfl, rfl, rfl, rfl, rfl, rfl, Or.inr ⟨?_, rfl⟩⟩
      intro u hu
      have := List.filter_eq_nil_iff.mp hfil u hu
      simpa using this
    | cons u0 us =>
      rw [hfil] at hr
      rcases List.mem_map.mp hr with ⟨u, hu, hru⟩
      have hufil : u ∈ uni.filter (fun u => u.acc == q.acc) := by
        rw [hfil]; exact hu
      have humem := List.mem_filter.mp hufil
      have huacc : u.acc = q.acc := by simpa using humem.2
      rw [← hru]
      exact ⟨rfl, rfl, rfl, rfl, rfl, rfl, Or.inl ⟨u, humem.1, huacc, rfl⟩⟩
  · rintro ⟨q, hq, hrec, hracc, hren, hran, hrrx, hrpr, hcase⟩
    refine ⟨q, hq, ?_⟩
    rcases hcase with ⟨u, hu, huacc, hseq⟩ | ⟨hall, hseq⟩
    · have hufil : u ∈ uni.filter (fun u => u.acc == q.acc) :=
        List.mem_filter.mpr ⟨hu, by simpa using huacc⟩
      cases hfil : uni.filter (fun u => u.acc == q.acc) with
      | nil => rw [hfil] at hufil; exact absurd hufil (List.not_mem_nil u)
      | cons u0 us =>
        rw [hfil] at hufil
        apply List.mem_map.mpr
        refine ⟨u, hufil, ?_⟩
        cases r
        simp only at hrec hracc hren hran hrrx hrpr hseq
        simp [hrec, hracc, hren, hran, hrrx, hrpr, hseq]
    · have hfil : uni.filter (fun u => u.acc == q.acc) = [] := by
        rw [List.filter_eq_nil_iff]
        intro u hu
        simpa using hall u hu
      rw [hfil]
      apply List.mem_singleton.mpr
      cases r
      simp only at hrec hracc hren hran hrrx hrpr hseq
      simp [hrec, hracc, hren, hran, hrrx, hrpr, hseq]

/-- C6: a row is in the merger's output iff it arises from a pair row by the
left join with the (deduplicated) classification metadata and a successful
left-join match with the sequence table, and its resolved sequence is
neither null nor the empty string — in particular every row whose retrieved
sequence is `""` is dropped. -/
theorem merge_drop_iff (pairs : List PairT) (meta : List EcMetaT)
    (uni : List UniT) (r : MasterT) :
    r ∈ mergeModel pairs meta uni ↔
      r.seq ≠ none ∧ r.seq ≠ some "" ∧
      ∃ p ∈ pairs, r.ec = p.ec ∧ r.acc = p.acc ∧
        ((∃ m ∈ dedupByKey id meta, m.ec = p.ec ∧ r.ename = m.ename ∧
            r.aname = m.aname ∧ r.rxn = m.rxn ∧ r.pr = m.pr) ∨
         ((∀ m ∈ dedupByKey id meta, m.ec ≠ p.ec) ∧ r.ename = none ∧
            r.aname = none ∧ r.rxn = none ∧ r.pr = none)) ∧
        (∃ u ∈ uni, u.acc = p.acc ∧ r.seq = u.seq) := by
  rw [mergeModel, List.mem_filter]
  have hpred : ((!(r.seq == none) && !(r.seq == some "")) = true)
      ↔ (r.seq ≠ none ∧ r.seq ≠ some "") := by
    simp
  rw [hpred, mem_joinSeq]
  constructor
  · rintro ⟨⟨q, hq, hrec, hracc, hren, hran, hrrx, hrpr, hucase⟩, hne1, hne2⟩
    refine ⟨hne1, hne2, ?_⟩
    rcases (mem_joinMeta pairs (dedupByKey id meta) q).mp hq with
      ⟨p, hp, hqec, hqacc, hmcase⟩
    refine ⟨p, hp, hrec.trans hqec, hracc.trans hqacc, ?_, ?_⟩
    · rcases hmcase with ⟨m, hm, hmec, g1, g2, g3, g4⟩ | ⟨hall, g1, g2, g3, g4⟩
      · exact Or.inl ⟨m, hm, hmec, hren.trans g1, hran.trans g2,
          hrrx.trans g3, hrpr.trans g4⟩
      · exact Or.inr ⟨hall, hren.trans g1, hran.trans g2,
          hrrx.trans g3, hrpr.trans g4⟩
    · rcases hucase with ⟨u, hu, huacc, hseq⟩ | ⟨hall, hseq⟩
      · exact ⟨u, hu, huacc.trans hqacc, hseq⟩
      · exact absurd hseq hne1
  · rintro ⟨hne1, hne2, p, hp, hrec, hracc, hmcase, u, hu, huacc, hseq⟩
    refine ⟨?_, hne1, hne2⟩
    refine ⟨⟨p.ec, p.acc, r.ename, r.aname, r.rxn, r.pr⟩, ?_, hrec, hracc,
      rfl, rfl, rfl, rfl, Or.inl ⟨u, hu, huacc, hseq⟩⟩
    apply (mem_joinMeta pairs (dedupByKey id meta) _).mpr
    exact ⟨p, hp, rfl, rfl, hmcase⟩

/-! ## The batch fetcher loop (`download_uniprot.py`, claims C3 and C10)

The network interaction of one chunk is abstracted as a `FetchOutcome`
(transport error, or a response with a status code and a body); the
TSV-parsing-and-normalization of a successful body (lines 75–103) is
abstracted as a `parseFn` parameter.  `fetch_uniprot_batch`'s error handling
(lines 35–73) and the download loop with its final deduplication
(lines 127–147) are modelled directly. -/

/-- One row of the fetched table; only the dedup key (`UniProt_ID`) and one
payload field matter for the loop's behaviour. -/
structure URow where
  uid : Option String
  seq : Option String
deriving DecidableEq, Repr

/-- What the transport returned for one chunk. -/
inductive FetchOutcome where
  | reqError : FetchOutcome
  | response (status : Nat) (text : String) : FetchOutcome
deriving DecidableEq, Repr

/-- `fetch_uniprot_batch` (lines 35–76): empty input, a transport error, a
non-200 status, or a whitespace-only body yield an empty table; otherwise
the body is parsed. -/
def fetchBatch (parseFn : String → List URow) (accs : List String)
    (o : FetchOutcome) : List URow :=
  if accs.isEmpty then []
  else
    match o with
    | .reqError => []
    | .response st text =>
      if st ≠ 200 then []
      else if strTrim text = "" then []
      else parseFn text

/-- A chunk outcome that the code logs and skips: transport error, non-200
status, or empty successful body. -/
def failedOutcome : FetchOutcome → Bool
  | .reqError => true
  | .response st text => st != 200 || strTrim text == ""

/-- The download loop (lines 127–136): fetch every chunk in order and
concatenate the per-chunk tables (appending an empty table is the same as
skipping it). -/
def collectChunks (parseFn : String → List URow)
    (o : List String → FetchOutcome) : List (List String) → List URow
  | [] => []
  | c :: cs => fetchBatch parseFn c (o c) ++ collectChunks parseFn o cs

/-- Lines 138–147: if nothing was fetched no output is produced; otherwise
the concatenation is deduplicated by `UniProt_ID` (keep first). -/
def downloadResult (parseFn : String → List URow)
    (o : List String → FetchOutcome) (chunks : List (List String)) :
    Option (List URow) :=
  if (collectChunks parseFn o chunks).isEmpty then none
  else some (dedupByKey (fun r => r.uid) (collectChunks parseFn o chunks))

theorem fetchBatch_failed (parseFn : String → List URow) (accs : List String)
    (o : FetchOutcome) (h : failedOutcome o = true) :
    fetchBatch parseFn accs o = [] := by
  cases o with
  | reqError =>
    unfold fetchBatch
    split_ifs <;> rfl
  | response st text =>
    simp only [failedOutcome, Bool.or_eq_true, bne_iff_ne, ne_eq,
      beq_iff_eq] at h
    unfold fetchBatch
    dsimp only
    split_ifs with h1 h2 h3
    · rfl
    · rfl
    · rfl
    · rcases h with h | h
      · exact absurd h h2
      · exact absurd h h3

/-- C3: a failing chunk (transport error, non-200 status, or empty
successful body) contributes zero entries and does not disturb the
processing of the chunks before or after it, and the collected table is
always the concatenation of the per-chunk fetch results — per-chunk failure
never aborts the fetch. -/
theorem chunk_failure_isolated (parseFn : String → List URow)
    (o : List String → FetchOutcome) (pre post : List (List String))
    (c : List String) (hfail : failedOutcome (o c) = true) :
    collectChunks parseFn o (pre ++ c :: post)
      = collectChunks parseFn o pre ++ collectChunks parseFn o post ∧
    ∀ chunks : List (List String),
      collectChunks parseFn o chunks
        = (chunks.map fun ch => fetchBatch parseFn ch (o ch)).join := by
  have hjoin : ∀ chunks : List (List String),
      collectChunks parseFn o chunks
        = (chunks.map fun ch => fetchBatch parseFn ch (o ch)).join := by
    intro chunks
    induction chunks with
    | nil => rfl
    | cons ch cs ih =>
      show fetchBatch parseFn ch (o ch) ++ collectChunks parseFn o cs
        = fetchBatch parseFn ch (o ch)
          ++ (cs.map fun ch => fetchBatch parseFn ch (o ch)).join
      rw [ih]
  refine ⟨?_, hjoin⟩
  induction pre with
  | nil =>
    show fetchBatch parseFn c (o c) ++ collectChunks parseFn o post
      = collectChunks parseFn o [] ++ collectChunks parseFn o post
    rw [fetchBatch_failed parseFn c (o c) hfail]
    rfl
  | cons p ps ih =>
    show fetchBatch parseFn p (o p) ++ collectChunks parseFn o (ps ++ c :: post)
      = (fetchBatch parseFn p (o p) ++ collectChunks parseFn o ps)
        ++ collectChunks parseFn o post
    rw [ih, List.append_assoc]

theorem chunk_failure_isolated_witness :
    failedOutcome ((fun ch : List String =>
        if ch = ["B"] then FetchOutcome.reqError
        else FetchOutcome.response 200 "ok") ["B"]) = true ∧
    collectChunks (fun t => [⟨some t, none⟩])
        (fun ch => if ch = ["B"] then FetchOutcome.reqError
          else FetchOutcome.response 200 "ok")
        ([["A"]] ++ ["B"] :: [["C"]])
      = collectChunks (fun t => [⟨some t, none⟩])
          (fun ch => if ch = ["B"] then FetchOutcome.reqError
            else FetchOutcome.response 200 "ok") [["A"]]
        ++ collectChunks (fun t => [⟨some t, none⟩])
            (fun ch => if ch = ["B"] then FetchOutcome.reqError
              else FetchOutcome.response 200 "ok") [["C"]] :=
  ⟨rfl,
   (chunk_failure_isolated (fun t => [⟨some t, none⟩])
      (fun ch => if ch = ["B"] then FetchOutcome.reqError
        else FetchOutcome.response 200 "ok")
      [["A"]] [["C"]] ["B"] rfl).1⟩

/-- C10: whenever the fetcher produces an output table, that table has
pairwise distinct `UniProt_ID` keys, is a subsequence of the concatenated
per-chunk results (chunk order), each kept row is the **first** row with
its key in that concatenation, and every fetched key is represented. -/
theorem dedup_keeps_first_seen (parseFn : String → List URow)
    (o : List String → FetchOutcome) (chunks : List (List String))
    (res : List URow) (h : downloadResult parseFn o chunks = some res) :
    ((res.map fun r => r.uid).Nodup) ∧
    List.Sublist res (collectChunks parseFn o chunks) ∧
    (∀ y ∈ res, (collectChunks parseFn o chunks).find?
        (fun z => decide (z.uid = y.uid)) = some y) ∧
    (∀ x ∈ collectChunks parseFn o chunks, ∃ y ∈ res, y.uid = x.uid) := by
  unfold downloadResult at h
  split_ifs at h with hempty
  have hres : res = dedupByKey (fun r => r.uid)
      (collectChunks parseFn o chunks) := by
    injection h with h2
    exact h2.symm
  subst hres
  refine ⟨dedupKeyAux_keys_nodup _ _ _, dedupKeyAux_sublist _ _ _, ?_, ?_⟩
  · intro y hy
    have hy' : y ∈ dedupKeyAux (fun r : URow => r.uid) []
        (collectChunks parseFn o chunks) := hy
    exact dedupKeyAux_find (fun r => r.uid) _ [] y hy'
  · intro x hx
    exact dedupKeyAux_covers (fun r => r.uid) _ [] x hx (List.not_mem_nil _)

theorem dedup_keeps_first_seen_witness :
    downloadResult (fun t => [⟨some "X", some t⟩])
        (fun _ => FetchOutcome.response 200 "b") [["A"], ["B"]]
      = some [⟨some "X", some "b"⟩] ∧
    ((([⟨some "X", some "b"⟩] : List URow).map fun r => r.uid).Nodup ∧
     List.Sublist [⟨some "X", some "b"⟩]
       (collectChunks (fun t => [⟨some "X", some t⟩])
         (fun _ => FetchOutcome.response 200 "b") [["A"], ["B"]]) ∧
     (∀ y ∈ ([⟨some "X", some "b"⟩] : List URow),
       (collectChunks (fun t => [⟨some "X", some t⟩])
           (fun _ => FetchOutcome.response 200 "b") [["A"], ["B"]]).find?
         (fun z => decide (z.uid = y.uid)) = some y) ∧
     (∀ x ∈ collectChunks (fun t => [⟨some "X", some t⟩])
         (fun _ => FetchOutcome.response 200 "b") [["A"], ["B"]],
       ∃ y ∈ ([⟨some "X", some "b"⟩] : List URow), y.uid = x.uid)) :=
  ⟨rfl,
   dedup_keeps_first_seen (fun t => [⟨some "X", some t⟩])
     (fun _ => FetchOutcome.response 200 "b") [["A"], ["B"]]
     [⟨some "X", some "b"⟩] rfl⟩

/-! ## Column normalization (`fetch_uniprot_batch`, lines 79–103, claim C9)

A parsed response is a data frame: a list of named columns (pandas keeps
duplicate labels).  `rename` relabels, `df[col] = pd.NA` appends a
null-filled column of the frame's row count, and `df[expected]` selects,
for each requested label in order, **every** column carrying that label. -/

/-- A data frame: named columns of nullable cells. -/
abbrev DF := List (String × List (Option String))

/-- The `rename_map` dict of lines 79–92, in insertion order. -/
def renameMap : List (String × String) :=
  [("Entry", "UniProt_ID"),
   ("Accession", "UniProt_ID"),
   ("Organism", "Organism"),
   ("Organism (scientific name)", "Organism"),
   ("Organism [Organism]", "Organism"),
   ("Protein names", "Protein_name"),
   ("Protein name", "Protein_name"),
   ("Gene Names", "Gene_name"),
   ("Gene Names (primary)", "Gene_name"),
   ("Gene Names (primary name)", "Gene_name"),
   ("Sequence", "Sequence"),
   ("Length", "Length")]

/-- The `expected` list of line 98. -/
def expectedCols : List String :=
  ["UniProt_ID", "Sequence", "Length", "Organism", "Protein_name", "Gene_name"]

/-- `len(df)`: the row count (the length of the first column). -/
def dfRows (df : DF) : Nat :=
  match df with
  | [] => 0
  | c :: _ => c.2.length

/-- One `df.rename(columns={old: new})` step guarded by `if old in df.columns`. -/
def renameStep (d : DF) (p : String × String) : DF :=
  if p.1 ∈ d.map Prod.fst then
    d.map fun c => if c.1 = p.1 then (p.2, c.2) else c
  else d

/-- Lines 94–96: apply every rename of `rename_map` in order. -/
def renameCols (df : DF) : DF := renameMap.foldl renameStep df

/-- One `if col not in df.columns: df[col] = pd.NA` step (lines 99–101). -/
def addMissingStep (d : DF) (col : String) : DF :=
  if col ∈ d.map Prod.fst then d
  else d ++ [(col, List.replicate (dfRows d) none)]

/-- Lines 98–101: synthesize a null column for each absent expected field. -/
def addMissingCols (df : DF) : DF := expectedCols.foldl addMissingStep df

/-- `df[names]` (line 103): for each requested label in order, every column
carrying that label. -/
def selectCols (df : DF) (names : List String) : DF :=
  names.bind fun e => df.filter fun c => c.1 == e

/-- The column normalization of `fetch_uniprot_batch` (lines 79–103). -/
def normalizeDF (df : DF) : DF :=
  selectCols (addMissingCols (renameCols df)) expectedCols

theorem dfRows_addMissingStep (d : DF) (col : String) :
    dfRows (addMissingStep d col) = dfRows d := by
  unfold addMissingStep
  split_ifs with h
  · rfl
  · cases d with
    | nil => simp [dfRows]
    | cons c cs => rfl

theorem names_mem_iff_filter (d : DF) (e : String) :
    e ∈ d.map Prod.fst ↔ d.filter (fun c => c.1 == e) ≠ [] := by
  constructor
  · intro h hnil
    rcases List.mem_map.mp h with ⟨c, hc, hce⟩
    have := List.filter_eq_nil_iff.mp hnil c hc
    simp only [beq_iff_eq] at this
    exact this hce
  · intro h
    rcases List.exists_mem_of_ne_nil _ h with ⟨c, hc⟩
    have hm := List.mem_filter.mp hc
    exact List.mem_map.mpr ⟨c, hm.1, by simpa using hm.2⟩

theorem filter_addMissing_notin (e : String) :
    ∀ (todo : List String) (g : DF), e ∉ todo →
      ((todo.foldl addMissingStep g).filter fun c => c.1 == e)
        = g.filter fun c => c.1 == e := by
  intro todo
  induction todo with
  | nil => intro g _; rfl
  | cons t ts ih =>
    intro g he
    have hne : e ≠ t := fun hh => he (hh ▸ List.mem_cons_self t ts)
    have hts : e ∉ ts := fun hh => he (List.mem_cons_of_mem t hh)
    rw [List.foldl_cons, ih (addMissingStep g t) hts]
    unfold addMissingStep
    split_ifs with h
    · rfl
    · rw [List.filter_append]
      have : (([(t, List.replicate (dfRows g) none)] : DF).filter
          fun c => c.1 == e) = [] := by
        simp [hne.symm]
      rw [this, List.append_nil]

theorem filter_addMissing_fold (e : String) :
    ∀ (todo : List String) (g : DF), todo.Nodup → e ∈ todo →
      ((todo.foldl addMissingStep g).filter fun c => c.1 == e)
        = if (g.filter fun c => c.1 == e) = []
          then [(e, List.replicate (dfRows g) none)]
          else g.filter fun c => c.1 == e := by
  intro todo
  induction todo with
  | nil => intro g _ hmem; exact absurd hmem (List.not_mem_nil e)
  | cons t ts ih =>
    intro g hnodup hmem
    have hn := List.nodup_cons.mp hnodup
    rw [List.foldl_cons]
    rcases List.mem_cons.mp hmem with he | he
    · subst he
      rw [filter_addMissing_notin e ts (addMissingStep g e) hn.1]
      unfold addMissingStep
      by_cases h : e ∈ g.map Prod.fst
      · rw [if_pos h]
        have hne : (g.filter fun c => c.1 == e) ≠ [] :=
          (names_mem_iff_filter g e).mp h
        rw [if_neg hne]
      · rw [if_neg h]
        have hnil : (g.filter fun c => c.1 == e) = [] := by
          by_contra hh
          exact h ((names_mem_iff_filter g e).mpr hh)
        rw [if_pos hnil, List.filter_append, hnil, List.nil_append]
        simp
    · have hne : e ≠ t := fun hh => hn.1 (hh ▸ he)
      rw [ih (addMissingStep g t) hn.2 he]
      have hfe : ((addMissingStep g t).filter fun c => c.1 == e)
          = g.filter fun c => c.1 == e := by
        unfold addMissingStep
        split_ifs with h
        · rfl
        · rw [List.filter_append]
          have hsingle : (([(t, List.replicate (dfRows g) none)] : DF).filter
              fun c => c.1 == e) = [] := by
            simp [hne.symm]
          rw [hsingle, List.append_nil]
      rw [hfe, dfRows_addMissingStep]

theorem bind_singleton_names : ∀ (names : List String) (f : String → DF),
    (∀ e ∈ names, ∃ cells, f e = [(e, cells)]) →
    (names.bind f).map Prod.fst = names := by
  intro names
  induction names with
  | nil => intro f _; rfl
  | cons n ns ih =>
    intro f h
    rcases h n (List.mem_cons_self n ns) with ⟨cells, hc⟩
    have hbind : (n :: ns).bind f = f n ++ ns.bind f := rfl
    rw [hbind, List.map_append, hc,
      ih f (fun e he => h e (List.mem_cons_of_mem n he))]
    rfl

/-- C9 counterexample: a response that uses only known synonyms but two of
them for the accession field (`Entry` and `Accession`) is normalized to a
frame with a duplicated `UniProt_ID` column — seven columns, not the exact
canonical schema. -/
def respDup : DF :=
  [("Entry", [some "P12345"]), ("Accession", [some "P12345"]),
   ("Sequence", [some "MKV"]), ("Length", [some "3"]),
   ("Organism", [some "E. coli"]), ("Protein names", [none]),
   ("Gene Names", [none])]

theorem normalize_schema_counterexample :
    (normalizeDF respDup).map Prod.fst
      = ["UniProt_ID", "UniProt_ID", "Sequence", "Length", "Organism",
         "Protein_name", "Gene_name"] ∧
    (normalizeDF respDup).map Prod.fst ≠ expectedCols :=
  ⟨by decide, by decide⟩

/-- C9 (amended): provided the response carries **at most one** column for
each canonical field after synonym renaming, the normalized frame has
exactly the canonical six-column schema, in order, and every canonical
field entirely absent from the response is a synthesized column whose cells
are all null.  (With two synonyms of one field present — e.g. `Entry` and
`Accession` — pandas keeps both columns and the schema is not exact.) -/
theorem normalize_schema (df : DF)
    (huniq : ∀ e ∈ expectedCols,
      ((renameCols df).filter fun c => c.1 == e).length ≤ 1) :
    (normalizeDF df).map Prod.fst = expectedCols ∧
    ∀ c ∈ normalizeDF df, c.1 ∉ (renameCols df).map Prod.fst →
      c.2 = List.replicate (dfRows (renameCols df)) none := by
  have hnodup : expectedCols.Nodup := by decide
  have hchar : ∀ e ∈ expectedCols,
      ((addMissingCols (renameCols df)).filter fun c => c.1 == e)
        = if ((renameCols df).filter fun c => c.1 == e) = []
          then [(e, List.replicate (dfRows (renameCols df)) none)]
          else (renameCols df).filter fun c => c.1 == e := by
    intro e he
    exact filter_addMissing_fold e expectedCols (renameCols df) hnodup he
  constructor
  · apply bind_singleton_names
    intro e he
    rw [hchar e he]
    by_cases h : ((renameCols df).filter fun c => c.1 == e) = []
    · rw [if_pos h]
      exact ⟨_, rfl⟩
    · rw [if_neg h]
      rcases hfil : (renameCols df).filter (fun c => c.1 == e) with _ | ⟨c, cs⟩
      · exact absurd hfil h
      · have hlen := huniq e he
        rw [hfil] at hlen
        have hcs : cs = [] := by
          cases cs with
          | nil => rfl
          | cons _ _ => simp at hlen
        subst hcs
        have hcmem : c ∈ (renameCols df).filter fun c => c.1 == e := by
          rw [hfil]
          exact List.mem_singleton.mpr rfl
        have hc1 : c.1 = e := by
          simpa using (List.mem_filter.mp hcmem).2
        have hceta : c = (e, c.2) := by
          rcases c with ⟨a, b⟩
          simp only at hc1
          rw [hc1]
        refine ⟨c.2, ?_⟩
        rw [← hceta]
        exact hfil
  · intro c hc hnot
    have hc2 : c ∈ selectCols (addMissingCols (renameCols df)) expectedCols := hc
    unfold selectCols at hc2
    rcases List.mem_bind.mp hc2 with ⟨e, he, hcfil⟩
    rw [hchar e he] at hcfil
    by_cases h : ((renameCols df).filter fun c => c.1 == e) = []
    · rw [if_pos h] at hcfil
      have hcv := List.mem_singleton.mp hcfil
      rw [hcv]
    · rw [if_neg h] at hcfil
      have hcg : c ∈ renameCols df := (List.mem_filter.mp hcfil).1
      exact absurd (List.mem_map.mpr ⟨c, hcg, rfl⟩) hnot

/-- A response using one known synonym per present field. -/
def respW : DF := [("Entry", [some "P1"]), ("Sequence", [some "M"])]

theorem normalize_schema_witness :
    (∀ e ∈ expectedCols,
      ((renameCols respW).filter fun c => c.1 == e).length ≤ 1) ∧
    ((normalizeDF respW).map Prod.fst = expectedCols ∧
     ∀ c ∈ normalizeDF respW, c.1 ∉ (renameCols respW).map Prod.fst →
       c.2 = List.replicate (dfRows (renameCols respW)) none) :=
  ⟨by decide, normalize_schema respW (by decide)⟩

end EnzymeAtlas
